import Mathlib

/-!
Shallow embedding of the JSON syntax-highlighting scanner of
`src/json_highlight.rs` (the core of the `patch-lite` repository), together
with theorems checking the claims of the specification about it.

Modelling conventions:
* Rust `String`/`&str` text is modelled as `List Char`; the scanner in the
  source operates on `let chars: Vec<char> = src.chars().collect()`.
* The literal-keyword guards in the source slice the original `&str` by BYTE
  index (`src[i..]`) while `i` is a CHAR index.  To model this faithfully the
  embedding also carries the UTF-8 byte sequence of the input and performs the
  slice on it, including the Rust char-boundary check: slicing a `&str` at a
  byte offset that is not a character boundary panics.  A panic is modelled as
  the scanner returning `none`.
* The Rust `while` loop advances the cursor by at least one character per
  iteration, so it performs at most `src.length` iterations.  The embedding
  runs the loop body on a fuel argument initialised to `src.length`, one unit
  per iteration, which therefore never runs out on a real scan; fuel
  exhaustion (which returns `none`) is unreachable from the entry point.
* The `iced` `Color` type (constructed via `Color::from_rgb8`) is modelled as an RGB
  triple of `Nat`.  A produced `Span` records, besides its text and colour,
  the `Kind` the scanner chose at the push site (the argument of `flush`, or
  the category of the directly pushed token); the source maps that kind to a
  colour and forgets it, the model keeps it observable.
-/

/-- Semantic categories of the scanner, mirroring the local `enum Kind` of
`json_to_spans` in `src/json_highlight.rs`. -/
inductive Kind where
  | Default
  | Key
  | String
  | Number
  | Bool
  | Null
  | Punct
deriving DecidableEq

/-- RGB colour triple, modelling `iced::Color` as built by `Color::from_rgb8`. -/
structure Color where
  r : Nat
  g : Nat
  b : Nat
deriving DecidableEq

/-- Mirrors `iced::Color::from_rgb8`. -/
def Color.from_rgb8 (r g b : Nat) : Color := ⟨r, g, b⟩

/-- Colour theme, mirroring `pub struct Theme` in `src/json_highlight.rs`. -/
structure Theme where
  key : Color
  string : Color
  number : Color
  boolean : Color
  null_ : Color
  punct : Color
  default : Color

/-- Mirrors `impl Default for Theme` in `src/json_highlight.rs`. -/
def defaultTheme : Theme where
  key := Color.from_rgb8 67 156 255
  string := Color.from_rgb8 80 250 123
  number := Color.from_rgb8 255 184 108
  boolean := Color.from_rgb8 189 147 249
  null_ := Color.from_rgb8 139 139 139
  punct := Color.from_rgb8 120 120 120
  default := Color.from_rgb8 220 220 220

/-- A styled run, modelling the `iced` `Span` values pushed by
`json_to_spans`: its text, the colour attached by `.color(...)`, and (kept
observable by the model) the scanner `Kind` from which that colour was
computed. -/
structure Span where
  kind : Kind
  text : List Char
  color : Color
deriving DecidableEq

/-- UTF-8 encoding of one character, as a Rust `str` stores it. -/
def utf8Bytes (c : Char) : List Nat :=
  let n := c.toNat
  if n < 0x80 then [n]
  else if n < 0x800 then
    [0xC0 + n / 0x40, 0x80 + n % 0x40]
  else if n < 0x10000 then
    [0xE0 + n / 0x1000, 0x80 + n / 0x40 % 0x40, 0x80 + n % 0x40]
  else
    [0xF0 + n / 0x40000, 0x80 + n / 0x1000 % 0x40, 0x80 + n / 0x40 % 0x40,
      0x80 + n % 0x40]

/-- UTF-8 byte sequence of a character list, modelling the bytes of the Rust
`&str` the scanner receives. -/
def strBytes (cs : List Char) : List Nat :=
  (cs.map utf8Bytes).flatten

/-- Mirrors `str::starts_with` with a string pattern: byte-prefix test. -/
def startsWithBytes : List Nat → List Nat → Bool
  | _, [] => true
  | [], _ :: _ => false
  | b :: bs, p :: ps => b == p && startsWithBytes bs ps

/-- Mirrors the Rust expression `&src[i..]` on a `&str`: returns the byte suffix when `i`
is a character boundary (offset 0, the total length, or a byte that is not a
UTF-8 continuation byte) and `none` (a panic) otherwise. -/
def byteSliceFrom (bytes : List Nat) (i : Nat) : Option (List Nat) :=
  if i = 0 then some bytes
  else if i = bytes.length then some []
  else if h : i < bytes.length then
    if (bytes.get ⟨i, h⟩) % 0x100 / 0x40 = 2 then none
    else some (bytes.drop i)
  else none

/-- Bytes of the literal `"true"` compared against by the scanner. -/
def trueBytes : List Nat := strBytes "true".data

/-- Bytes of the literal `"false"` compared against by the scanner. -/
def falseBytes : List Nat := strBytes "false".data

/-- Bytes of the literal `"null"` compared against by the scanner. -/
def nullBytes : List Nat := strBytes "null".data

/-- Mirrors the Rust method `char::is_whitespace`: membership in the Unicode
White_Space set. -/
def rustIsWhitespace (c : Char) : Bool :=
  let n := c.toNat
  decide ((9 ≤ n ∧ n ≤ 13) ∨ n = 0x20 ∨ n = 0x85 ∨ n = 0xA0 ∨ n = 0x1680 ∨
    (0x2000 ≤ n ∧ n ≤ 0x200A) ∨ n = 0x2028 ∨ n = 0x2029 ∨ n = 0x202F ∨
    n = 0x205F ∨ n = 0x3000)

/-- Continuation test of the number loop in `json_to_spans`:
`chars[i].is_ascii_digit() || ".eE+-".contains(chars[i])`. -/
def isNumCont (c : Char) : Bool :=
  c.isDigit || c == '.' || c == 'e' || c == 'E' || c == '+' || c == '-'

/-- Key lookahead of `json_to_spans` on the characters after a closing quote:
skip whitespace (`while j < chars.len() && chars[j].is_whitespace()`), then
test `j < chars.len() && chars[j] == ':'`. -/
def keyLookaheadFrom : List Char → Bool
  | [] => false
  | c :: cs => if rustIsWhitespace c then keyLookaheadFrom cs else c == ':'

/-- Key lookahead started at character index `j` of the full input. -/
def keyLookahead (src : List Char) (j : Nat) : Bool :=
  keyLookaheadFrom (src.drop j)

/-- Colour selection of the `flush` closure in `json_to_spans` (the
`match k` on the kind). -/
def colorOf (th : Theme) : Kind → Color
  | Kind.Key => th.key
  | Kind.String => th.string
  | Kind.Number => th.number
  | Kind.Bool => th.boolean
  | Kind.Null => th.null_
  | Kind.Punct => th.punct
  | Kind.Default => th.default

/-- The `flush` closure of `json_to_spans`: emits nothing when the buffer is
empty, otherwise one span holding the buffer text coloured by the kind. -/
def flushSpans (th : Theme) (k : Kind) (b : List Char) : List Span :=
  if b.isEmpty then [] else [⟨k, b, colorOf th k⟩]

/-- Loop body of `json_to_spans` (lines 106-174 of `src/json_highlight.rs`),
written forward: `go th src bytes fuel i inString escape buf` returns the
spans the scanner still emits from character index `i` on, given the current
`in_string`/`escape` flags and pending buffer, or `none` when the scanner
panics.  `fuel` pays one unit per loop iteration and is initialised to
`src.length` by the entry point, which every run of the loop respects. -/
def go (th : Theme) (src : List Char) (bytes : List Nat) :
    Nat → Nat → Bool → Bool → List Char → Option (List Span)
  | 0, i, _, _, buf =>
    match src[i]? with
    | none => some (flushSpans th Kind.Default buf)
    | some _ => none
  | fuel + 1, i, inString, escape, buf =>
    match src[i]? with
    | none => some (flushSpans th Kind.Default buf)
    | some c =>
      if inString then
        if escape then
          go th src bytes fuel (i + 1) true false (buf ++ [c])
        else if c = '\\' then
          go th src bytes fuel (i + 1) true true (buf ++ [c])
        else if c = '"' then
          (go th src bytes fuel (i + 1) false escape []).map
            (fun rest =>
              flushSpans th
                (if keyLookahead src (i + 1) then Kind.Key else Kind.String)
                (buf ++ [c]) ++ rest)
        else
          go th src bytes fuel (i + 1) true escape (buf ++ [c])
      else
        if c = '"' then
          (go th src bytes fuel (i + 1) true escape [c]).map
            (fun rest => flushSpans th Kind.Default buf ++ rest)
        else if c = ':' ∨ c = '{' ∨ c = '}' ∨ c = '[' ∨ c = ']' ∨ c = ',' then
          (go th src bytes fuel (i + 1) inString escape []).map
            (fun rest =>
              flushSpans th Kind.Default buf ++ ⟨Kind.Punct, [c], th.punct⟩ :: rest)
        else if c.isDigit ∨ c = '-' then
          (go th src bytes fuel
              (i + 1 + ((src.drop (i + 1)).takeWhile isNumCont).length)
              inString escape []).map
            (fun rest =>
              flushSpans th Kind.Default buf ++
                ⟨Kind.Number, c :: (src.drop (i + 1)).takeWhile isNumCont,
                  th.number⟩ :: rest)
        else if c = 't' then
          match byteSliceFrom bytes i with
          | none => none
          | some bs =>
            if startsWithBytes bs trueBytes then
              (go th src bytes fuel (i + 4) inString escape []).map
                (fun rest =>
                  flushSpans th Kind.Default buf ++
                    ⟨Kind.Bool, "true".data, th.boolean⟩ :: rest)
            else
              go th src bytes fuel (i + 1) inString escape (buf ++ [c])
        else if c = 'f' then
          match byteSliceFrom bytes i with
          | none => none
          | some bs =>
            if startsWithBytes bs falseBytes then
              (go th src bytes fuel (i + 5) inString escape []).map
                (fun rest =>
                  flushSpans th Kind.Default buf ++
                    ⟨Kind.Bool, "false".data, th.boolean⟩ :: rest)
            else
              go th src bytes fuel (i + 1) inString escape (buf ++ [c])
        else if c = 'n' then
          match byteSliceFrom bytes i with
          | none => none
          | some bs =>
            if startsWithBytes bs nullBytes then
              (go th src bytes fuel (i + 4) inString escape []).map
                (fun rest =>
                  flushSpans th Kind.Default buf ++
                    ⟨Kind.Null, "null".data, th.null_⟩ :: rest)
            else
              go th src bytes fuel (i + 1) inString escape (buf ++ [c])
        else
          go th src bytes fuel (i + 1) inString escape (buf ++ [c])

/-- The scanner `json_to_spans` of `src/json_highlight.rs`: a single pass over
the characters of `src`, starting outside a string with an empty buffer.
`none` models a panic of the Rust function. -/
def json_to_spans (src : List Char) (th : Theme) : Option (List Span) :=
  go th src (strBytes src) src.length 0 false false []

/-- Concatenation of the texts of a run sequence. -/
def concatText (rs : List Span) : List Char :=
  (rs.map Span.text).flatten

/-- Observation of a span as its category and text, forgetting the colour. -/
def projSpan (sp : Span) : Kind × List Char :=
  (sp.kind, sp.text)

/-- Category/text observation of a scanner result. -/
def runs (o : Option (List Span)) : Option (List (Kind × List Char)) :=
  o.map (List.map projSpan)

/-- Warning colour of the invalid-JSON diagnostic span in `rich_json_str`
(`Color::from_rgb8(255, 100, 100)`). -/
def warnColor : Color := Color.from_rgb8 255 100 100

/-- Text of the diagnostic span of `rich_json_str`:
`format!("❌ JSON inválido: {e}\n\n")`. -/
def invalidMsg (e : List Char) : List Char :=
  "❌ JSON inválido: ".data ++ e ++ "\n\n".data

/-- Mirrors `rich_json_str` of `src/json_highlight.rs` at the level of the
span list it builds.  The call to the external `serde_json::from_str` parser
is abstracted into the `parsed` argument: an `Except.ok` outcome carries the
spans the `rich_json_value` branch produces for the parsed value, and an
`Except.error` outcome carries the error description of the parser, rendered by
the fallback branch (lines 36-44 of the source). -/
def rich_json_str (parsed : Except (List Char) (List Span))
    (src : List Char) : List Span :=
  match parsed with
  | Except.ok spans => spans
  | Except.error e =>
      ⟨Kind.Default, invalidMsg e, warnColor⟩ ::
        ⟨Kind.Default, src, defaultTheme.default⟩ :: []

/-- First non-whitespace character of a character list, written from the
description of key lookahead in the spec ("scan forward ..., skipping whitespace
characters, and test whether the next non-whitespace character is a colon");
compared against `keyLookaheadFrom` from the source in claim C3. -/
def specFirstNonWs : List Char → Option Char
  | [] => none
  | c :: cs => if rustIsWhitespace c then specFirstNonWs cs else some c

/-- C1: the round-trip claim fails on the code.  On the twelve-character
input `"ééééétrue"t` (a quoted string containing five copies of the letter
e-acute followed by the letters t r u e, then a bare letter t) the scanner
succeeds without panicking, yet the concatenation of the texts of its output
runs is `"ééééétrue"true`, fifteen characters: the trailing `t` of the input
is replaced by `true`, because the literal-keyword guard slices the input by
BYTE offset 11 (which lands on the letter t inside the already-emitted
string run) while the cursor is at CHAR index 11.  Characters are therefore
duplicated, refuting byte-for-byte round-trip. -/
theorem claim_C1 :
    (json_to_spans "\"ééééétrue\"t".data defaultTheme).map concatText =
      some "\"ééééétrue\"true".data ∧
    "\"ééééétrue\"true".data ≠ "\"ééééétrue\"t".data := by
  exact ⟨by decide, by decide⟩

/-- C2: totality of the scanner fails on the code.  On the two-character
input `ét` the guard of the `true` match arm evaluates `src[1..]`, a byte
slice at offset 1, which is in the middle of the two-byte UTF-8 encoding of
the letter e-acute: the Rust program panics (modelled as `none`), so the
scanner is not total on arbitrary UTF-8 text. -/
theorem claim_C2 : json_to_spans "ét".data defaultTheme = none := by decide

/-- C3: a quoted string closed by an unescaped double quote is classified
`Key` if and only if the first non-whitespace character after the closing
quote is a colon, and `String` otherwise.  First conjunct: the key lookahead
of the source agrees, on every character sequence following the closing
quote, with the specification reading "next non-whitespace character is a
colon".  The remaining conjuncts check the three dictated examples: the run
for the quoted `a` is a `Key` in `{"a":1}`, a `String` in `["a"]`, and still
a `Key` in `{"a"   :1}` where whitespace separates the quote from the
colon. -/
theorem claim_C3 :
    (∀ l : List Char,
      keyLookaheadFrom l = true ↔ specFirstNonWs l = some ':') ∧
    runs (json_to_spans "\x7b\"a\":1\x7d".data defaultTheme) =
      some [(Kind.Punct, ['{']), (Kind.Key, "\"a\"".data), (Kind.Punct, [':']),
        (Kind.Number, ['1']), (Kind.Punct, ['}'])] ∧
    runs (json_to_spans "[\"a\"]".data defaultTheme) =
      some [(Kind.Punct, ['[']), (Kind.String, "\"a\"".data),
        (Kind.Punct, [']'])] ∧
    runs (json_to_spans "\x7b\"a\"   :1\x7d".data defaultTheme) =
      some [(Kind.Punct, ['{']), (Kind.Key, "\"a\"".data),
        (Kind.Default, [' ', ' ', ' ']), (Kind.Punct, [':']),
        (Kind.Number, ['1']), (Kind.Punct, ['}'])] := by
  refine ⟨?_, by decide, by decide, by decide⟩
  intro l
  induction l with
  | nil => simp [keyLookaheadFrom, specFirstNonWs]
  | cons c cs ih =>
    by_cases hw : rustIsWhitespace c
    · simpa [keyLookaheadFrom, specFirstNonWs, hw] using ih
    · simp [keyLookaheadFrom, specFirstNonWs, hw]

/-- C4: inside a string a character guarded by a pending escape never closes
the string.  First conjunct: whenever the scanner is inside a string with the
escape flag set and reads any character (even a double quote), it appends the
character to the buffer, clears the flag, and stays inside the string —
emitting nothing.  Second conjunct: scanning the six-character input
`"a\"b"` (open quote, a, backslash, quote, b, close quote) yields exactly one
`String` run spanning the whole quoted literal, not split at the escaped
quote. -/
theorem claim_C4 :
    (∀ (th : Theme) (src : List Char) (bytes : List Nat)
        (fuel i : Nat) (buf : List Char) (c : Char),
      src[i]? = some c →
      go th src bytes (fuel + 1) i true true buf =
        go th src bytes fuel (i + 1) true false (buf ++ [c])) ∧
    runs (json_to_spans "\"a\\\"b\"".data defaultTheme) =
      some [(Kind.String, "\"a\\\"b\"".data)] := by
  refine ⟨?_, by decide⟩
  intro th src bytes fuel i buf c h
  simp [go, h]

/-- C4 witness: the escaped-character step applied concretely, inside the
string at index 0 of the input `ab` with the escape flag pending. -/
theorem claim_C4_witness :
    "ab".data[0]? = some 'a' ∧
    go defaultTheme "ab".data (strBytes "ab".data) 1 0 true true [] =
      go defaultTheme "ab".data (strBytes "ab".data) 0 1 true false ['a'] :=
  ⟨by decide, claim_C4.1 defaultTheme "ab".data (strBytes "ab".data) 0 0 []
    'a' (by decide)⟩

/-- Helper for claim C5: a character that starts a number run (an ASCII digit
or a minus sign) is never a double quote and never one of the six
punctuation characters, so the earlier match arms of the dispatch do not
capture it. -/
theorem numStart_not_special (c : Char) (hd : c.isDigit ∨ c = '-') :
    ¬c = '"' ∧ ¬(c = ':' ∨ c = '{' ∨ c = '}' ∨ c = '[' ∨ c = ']' ∨ c = ',') := by
  rcases hd with hd | rfl
  · constructor
    · intro h
      rw [h] at hd
      exact absurd hd (by decide)
    · intro h
      rcases h with rfl | rfl | rfl | rfl | rfl | rfl <;>
        exact absurd hd (by decide)
  · exact ⟨by decide, by decide⟩

/-- C5: outside a string, an ASCII digit or a minus sign starts a `Number`
run that extends greedily while the following characters are drawn from the
set of digits and the characters `.`, `e`, `E`, `+`, `-`.  First conjunct:
the dispatch step on such a character emits the pending `Default` buffer,
then a `Number` run consisting of the character followed by the longest
such prefix of the remaining input, and resumes after it.  The remaining
conjuncts check the dictated examples: `-12.5e-10` is one `Number` run, and
`3,4` is a `Number` run `3`, a `Punctuation` run `,`, and a `Number` run
`4`. -/
theorem claim_C5 :
    (∀ (th : Theme) (src : List Char) (bytes : List Nat)
        (fuel i : Nat) (escape : Bool) (buf : List Char) (c : Char),
      src[i]? = some c →
      c.isDigit ∨ c = '-' →
      go th src bytes (fuel + 1) i false escape buf =
        (go th src bytes fuel
            (i + 1 + ((src.drop (i + 1)).takeWhile isNumCont).length)
            false escape []).map
          (fun rest =>
            flushSpans th Kind.Default buf ++
              ⟨Kind.Number, c :: (src.drop (i + 1)).takeWhile isNumCont,
                th.number⟩ :: rest)) ∧
    runs (json_to_spans "-12.5e-10".data defaultTheme) =
      some [(Kind.Number, "-12.5e-10".data)] ∧
    runs (json_to_spans "3,4".data defaultTheme) =
      some [(Kind.Number, ['3']), (Kind.Punct, [',']), (Kind.Number, ['4'])] := by
  refine ⟨?_, by decide, by decide⟩
  intro th src bytes fuel i escape buf c h hd
  obtain ⟨h1, h2⟩ := numStart_not_special c hd
  simp [go, h, h1, h2, hd]

/-- C5 witness: the number step applied concretely at index 0 of the input
`3,4`, producing the one-digit `Number` run `3` and resuming at the comma. -/
theorem claim_C5_witness :
    "3,4".data[0]? = some '3' ∧ ('3'.isDigit ∨ '3' = '-') ∧
    go defaultTheme "3,4".data (strBytes "3,4".data) 3 0 false false [] =
      (go defaultTheme "3,4".data (strBytes "3,4".data) 2 1 false false []).map
        (fun rest =>
          flushSpans defaultTheme Kind.Default [] ++
            ⟨Kind.Number, ['3'], defaultTheme.number⟩ :: rest) :=
  ⟨by decide, by decide,
    claim_C5.1 defaultTheme "3,4".data (strBytes "3,4".data) 2 0 false []
      '3' (by decide) (by decide)⟩

/-- C6: the literals `true`, `false`, `null` are matched by direct prefix
comparison and emitted as single `Boolean` or `Null` runs with the cursor
advanced by the length of the literal, with no word-boundary requirement.
The input `true false null` yields, in order, a `Boolean` run `true`, a
`Default` run of one space, a `Boolean` run `false`, a `Default` run of one
space, and a `Null` run `null`; the input `truezzz` yields the
four-character `Boolean` run `true` with `zzz` continuing as `Default`. -/
theorem claim_C6 :
    runs (json_to_spans "true false null".data defaultTheme) =
      some [(Kind.Bool, "true".data), (Kind.Default, [' ']),
        (Kind.Bool, "false".data), (Kind.Default, [' ']),
        (Kind.Null, "null".data)] ∧
    runs (json_to_spans "truezzz".data defaultTheme) =
      some [(Kind.Bool, "true".data), (Kind.Default, "zzz".data)] := by
  exact ⟨by decide, by decide⟩

/-- C7: at end of input the scanner flushes whatever remains in the buffer
as a single `Default` run.  First conjunct: once the cursor is past the last
character the scanner returns exactly the flush of the remaining buffer as
`Default`, whatever the `in_string` and escape flags are — so the fragment of
an unterminated string is emitted as a partial run, never an error.  Second
conjunct: a non-empty buffer flushes to exactly one `Default` run holding it.
Third conjunct: scanning the empty input returns the empty sequence, for
every theme.  Fourth conjunct: the unterminated string `"ab` is emitted as
one partial `Default` run. -/
theorem claim_C7 :
    (∀ (th : Theme) (src : List Char) (bytes : List Nat)
        (fuel i : Nat) (inString escape : Bool) (buf : List Char),
      src[i]? = none →
      go th src bytes fuel i inString escape buf =
        some (flushSpans th Kind.Default buf)) ∧
    (∀ (th : Theme) (b : List Char), b ≠ [] →
      flushSpans th Kind.Default b = [⟨Kind.Default, b, th.default⟩]) ∧
    (∀ th : Theme, json_to_spans [] th = some []) ∧
    runs (json_to_spans "\"ab".data defaultTheme) =
      some [(Kind.Default, "\"ab".data)] := by
  refine ⟨?_, ?_, fun th => rfl, by decide⟩
  · intro th src bytes fuel i inString escape buf h
    cases fuel <;> simp [go, h]
  · intro th b hb
    unfold flushSpans
    rw [if_neg (fun h => hb (List.isEmpty_iff.mp h))]
    rfl

/-- C7 witness: the end-of-input flush applied concretely to the input `"ab`
with the cursor past the end, the string still open, and the unterminated
fragment in the buffer; and the non-empty flush applied to that fragment. -/
theorem claim_C7_witness :
    ("\"ab".data[3]? = none ∧
      go defaultTheme "\"ab".data (strBytes "\"ab".data) 0 3 true false
          "\"ab".data =
        some (flushSpans defaultTheme Kind.Default "\"ab".data)) ∧
    ("\"ab".data ≠ [] ∧
      flushSpans defaultTheme Kind.Default "\"ab".data =
        [⟨Kind.Default, "\"ab".data, defaultTheme.default⟩]) :=
  ⟨⟨by decide,
    claim_C7.1 defaultTheme "\"ab".data (strBytes "\"ab".data) 0 3 true false
      "\"ab".data (by decide)⟩,
   ⟨by decide, claim_C7.2.1 defaultTheme "\"ab".data (by decide)⟩⟩

/-- C8: on any input that the external JSON parser rejects, the fallback
branch of `rich_json_str` produces exactly two runs: first a diagnostic run
under the warning colour, whose text embeds the error description of the
parser inside a human-readable message, then one run holding the entire
original input verbatim under the default theme colour; the warning colour
differs from the default colour, and no error escapes. -/
theorem claim_C8 :
    ∀ (src e : List Char),
      rich_json_str (Except.error e) src =
        [⟨Kind.Default, invalidMsg e, warnColor⟩,
          ⟨Kind.Default, src, defaultTheme.default⟩] ∧
      (rich_json_str (Except.error e) src).length = 2 ∧
      (∃ pre post, invalidMsg e = pre ++ e ++ post ∧ pre ≠ []) ∧
      warnColor ≠ defaultTheme.default := by
  intro src e
  exact ⟨rfl, rfl,
    ⟨"❌ JSON inválido: ".data, "\n\n".data, rfl, by decide⟩, by decide⟩

/-- Helper for claim C9: every span the `flush` closure emits has non-empty
text, because emission is skipped when the buffer is empty. -/
theorem flushSpans_no_empty (th : Theme) (k : Kind) (b : List Char) :
    ∀ sp ∈ flushSpans th k b, sp.text ≠ [] := by
  intro sp hsp
  unfold flushSpans at hsp
  split at hsp
  · exact absurd hsp (by simp)
  · next hb =>
    rw [List.mem_singleton] at hsp
    subst hsp
    intro h
    apply hb
    have hb2 : b = [] := h
    simp [hb2]

/-- Helper for claim C9: every span produced by any run of the scanner loop,
from any cursor position, flags, and pending buffer, has non-empty text. -/
theorem go_no_empty (th : Theme) (src : List Char) (bytes : List Nat) :
    ∀ (fuel i : Nat) (inString escape : Bool) (buf : List Char)
      (rs : List Span),
      go th src bytes fuel i inString escape buf = some rs →
      ∀ sp ∈ rs, sp.text ≠ [] := by
  intro fuel
  induction fuel with
  | zero =>
    intro i inString escape buf rs h sp hsp
    unfold go at h
    split at h
    · rw [Option.some_inj] at h
      subst h
      exact flushSpans_no_empty th Kind.Default buf sp hsp
    · exact absurd h (by simp)
  | succ fuel ih =>
    intro i inString escape buf rs h sp hsp
    unfold go at h
    split at h
    · rw [Option.some_inj] at h
      subst h
      exact flushSpans_no_empty th Kind.Default buf sp hsp
    · rename_i c hg
      by_cases hstr : inString = true
      · rw [if_pos hstr] at h
        by_cases hesc : escape = true
        · rw [if_pos hesc] at h
          exact ih _ _ _ _ _ h sp hsp
        · rw [if_neg hesc] at h
          by_cases hbk : c = '\\'
          · rw [if_pos hbk] at h
            exact ih _ _ _ _ _ h sp hsp
          · rw [if_neg hbk] at h
            by_cases hq : c = '"'
            · rw [if_pos hq] at h
              rcases Option.map_eq_some'.mp h with ⟨rest, hrest, hrs⟩
              subst hrs
              simp only [List.mem_append] at hsp
              rcases hsp with h2 | h2
              · exact flushSpans_no_empty _ _ _ sp h2
              · exact ih _ _ _ _ _ hrest sp h2
            · rw [if_neg hq] at h
              exact ih _ _ _ _ _ h sp hsp
      · rw [if_neg hstr] at h
        by_cases hq : c = '"'
        · rw [if_pos hq] at h
          rcases Option.map_eq_some'.mp h with ⟨rest, hrest, hrs⟩
          subst hrs
          simp only [List.mem_append] at hsp
          rcases hsp with h2 | h2
          · exact flushSpans_no_empty _ _ _ sp h2
          · exact ih _ _ _ _ _ hrest sp h2
        · rw [if_neg hq] at h
          by_cases hp : c = ':' ∨ c = '{' ∨ c = '}' ∨ c = '[' ∨ c = ']' ∨ c = ','
          · rw [if_pos hp] at h
            rcases Option.map_eq_some'.mp h with ⟨rest, hrest, hrs⟩
            subst hrs
            simp only [List.mem_append, List.mem_cons] at hsp
            rcases hsp with h2 | h2 | h2
            · exact flushSpans_no_empty _ _ _ sp h2
            · subst h2; simp
            · exact ih _ _ _ _ _ hrest sp h2
          · rw [if_neg hp] at h
            by_cases hd : c.isDigit ∨ c = '-'
            · rw [if_pos hd] at h
              rcases Option.map_eq_some'.mp h with ⟨rest, hrest, hrs⟩
              subst hrs
              simp only [List.mem_append, List.mem_cons] at hsp
              rcases hsp with h2 | h2 | h2
              · exact flushSpans_no_empty _ _ _ sp h2
              · subst h2; simp
              · exact ih _ _ _ _ _ hrest sp h2
            · rw [if_neg hd] at h
              by_cases ht : c = 't'
              · rw [if_pos ht] at h
                split at h
                · exact absurd h (by simp)
                · rename_i bs hbs
                  by_cases hpre : startsWithBytes bs trueBytes = true
                  · rw [if_pos hpre] at h
                    rcases Option.map_eq_some'.mp h with ⟨rest, hrest, hrs⟩
                    subst hrs
                    simp only [List.mem_append, List.mem_cons] at hsp
                    rcases hsp with h2 | h2 | h2
                    · exact flushSpans_no_empty _ _ _ sp h2
                    · subst h2; simp
                    · exact ih _ _ _ _ _ hrest sp h2
                  · rw [if_neg hpre] at h
                    exact ih _ _ _ _ _ h sp hsp
              · rw [if_neg ht] at h
                by_cases hf : c = 'f'
                · rw [if_pos hf] at h
                  split at h
                  · exact absurd h (by simp)
                  · rename_i bs hbs
                    by_cases hpre : startsWithBytes bs falseBytes = true
                    · rw [if_pos hpre] at h
                      rcases Option.map_eq_some'.mp h with ⟨rest, hrest, hrs⟩
                      subst hrs
                      simp only [List.mem_append, List.mem_cons] at hsp
                      rcases hsp with h2 | h2 | h2
                      · exact flushSpans_no_empty _ _ _ sp h2
                      · subst h2; simp
                      · exact ih _ _ _ _ _ hrest sp h2
                    · rw [if_neg hpre] at h
                      exact ih _ _ _ _ _ h sp hsp
                · rw [if_neg hf] at h
                  by_cases hn : c = 'n'
                  · rw [if_pos hn] at h
                    split at h
                    · exact absurd h (by simp)
                    · rename_i bs hbs
                      by_cases hpre : startsWithBytes bs nullBytes = true
                      · rw [if_pos hpre] at h
                        rcases Option.map_eq_some'.mp h with ⟨rest, hrest, hrs⟩
                        subst hrs
                        simp only [List.mem_append, List.mem_cons] at hsp
                        rcases hsp with h2 | h2 | h2
                        · exact flushSpans_no_empty _ _ _ sp h2
                        · subst h2; simp
                        · exact ih _ _ _ _ _ hrest sp h2
                      · rw [if_neg hpre] at h
                        exact ih _ _ _ _ _ h sp hsp
                  · rw [if_neg hn] at h
                    exact ih _ _ _ _ _ h sp hsp

/-- C9: for every input and theme, when the scanner returns a run sequence,
no run in it has empty text. -/
theorem claim_C9 :
    ∀ (src : List Char) (th : Theme) (rs : List Span),
      json_to_spans src th = some rs → ∀ sp ∈ rs, sp.text ≠ [] := by
  intro src th rs h
  exact go_no_empty th src (strBytes src) src.length 0 false false [] rs h

/-- C9 witness: on the one-character input `x` the scanner emits exactly one
run, whose text is non-empty. -/
theorem claim_C9_witness :
    json_to_spans ['x'] defaultTheme =
      some [⟨Kind.Default, ['x'], defaultTheme.default⟩] ∧
    Span.text ⟨Kind.Default, ['x'], defaultTheme.default⟩ ≠ [] :=
  ⟨by decide,
    claim_C9 ['x'] defaultTheme [⟨Kind.Default, ['x'], defaultTheme.default⟩]
      (by decide) _ (List.mem_singleton.mpr rfl)⟩

/-- Helper for claim C10: the category/text observation of a flushed buffer
does not depend on the theme, which only selects the colour. -/
theorem flushSpans_proj (t1 t2 : Theme) (k : Kind) (b : List Char) :
    (flushSpans t1 k b).map projSpan = (flushSpans t2 k b).map projSpan := by
  by_cases hb : b.isEmpty = true <;> simp [flushSpans, hb, projSpan]

/-- Helper for claim C10: congruence of the category/text observation under
`Option.map`, used to push the induction through the emit-and-continue
branches of the scanner loop. -/
theorem runs_congr (o1 o2 : Option (List Span)) (f1 f2 : List Span → List Span)
    (ho : runs o1 = runs o2)
    (hf : ∀ r1 r2, r1.map projSpan = r2.map projSpan →
      (f1 r1).map projSpan = (f2 r2).map projSpan) :
    runs (o1.map f1) = runs (o2.map f2) := by
  cases o1 with
  | none =>
    cases o2 with
    | none => rfl
    | some a2 => exact absurd ho (by simp [runs])
  | some a1 =>
    cases o2 with
    | none => exact absurd ho (by simp [runs])
    | some a2 =>
      have h2 : a1.map projSpan = a2.map projSpan := by
        simpa [runs] using ho
      simpa [runs] using hf a1 a2 h2

/-- Helper for claim C10: from any cursor position, flags, and pending
buffer, two runs of the scanner loop that differ only in the theme produce
the same categories and the same texts (or both panic). -/
theorem go_theme_indep (t1 t2 : Theme) (src : List Char) (bytes : List Nat) :
    ∀ (fuel i : Nat) (inString escape : Bool) (buf : List Char),
      runs (go t1 src bytes fuel i inString escape buf) =
        runs (go t2 src bytes fuel i inString escape buf) := by
  intro fuel
  induction fuel with
  | zero =>
    intro i inString escape buf
    unfold go
    cases hg : src[i]?
    · simpa [runs] using flushSpans_proj t1 t2 Kind.Default buf
    · rfl
  | succ fuel ih =>
    intro i inString escape buf
    unfold go
    cases hg : src[i]?
    · simpa [runs] using flushSpans_proj t1 t2 Kind.Default buf
    · rename_i c
      simp only []
      by_cases hstr : inString = true
      · rw [if_pos hstr, if_pos hstr]
        by_cases hesc : escape = true
        · rw [if_pos hesc, if_pos hesc]
          exact ih _ _ _ _
        · rw [if_neg hesc, if_neg hesc]
          by_cases hbk : c = '\\'
          · rw [if_pos hbk, if_pos hbk]
            exact ih _ _ _ _
          · rw [if_neg hbk, if_neg hbk]
            by_cases hq : c = '"'
            · rw [if_pos hq, if_pos hq]
              refine runs_congr _ _ _ _ (ih _ _ _ _) ?_
              intro r1 r2 hr
              simp only [List.map_append, List.map_cons, projSpan, hr,
                flushSpans_proj t1 t2]
            · rw [if_neg hq, if_neg hq]
              exact ih _ _ _ _
      · rw [if_neg hstr, if_neg hstr]
        by_cases hq : c = '"'
        · rw [if_pos hq, if_pos hq]
          refine runs_congr _ _ _ _ (ih _ _ _ _) ?_
          intro r1 r2 hr
          simp only [List.map_append, List.map_cons, projSpan, hr,
            flushSpans_proj t1 t2]
        · rw [if_neg hq, if_neg hq]
          by_cases hp : c = ':' ∨ c = '{' ∨ c = '}' ∨ c = '[' ∨ c = ']' ∨ c = ','
          · rw [if_pos hp, if_pos hp]
            refine runs_congr _ _ _ _ (ih _ _ _ _) ?_
            intro r1 r2 hr
            simp only [List.map_append, List.map_cons, projSpan, hr,
              flushSpans_proj t1 t2]
          · rw [if_neg hp, if_neg hp]
            by_cases hd : c.isDigit ∨ c = '-'
            · rw [if_pos hd, if_pos hd]
              refine runs_congr _ _ _ _ (ih _ _ _ _) ?_
              intro r1 r2 hr
              simp only [List.map_append, List.map_cons, projSpan, hr,
                flushSpans_proj t1 t2]
            · rw [if_neg hd, if_neg hd]
              by_cases ht : c = 't'
              · rw [if_pos ht, if_pos ht]
                cases hbs : byteSliceFrom bytes i
                · rfl
                · rename_i bs
                  simp only []
                  by_cases hpre : startsWithBytes bs trueBytes = true
                  · rw [if_pos hpre, if_pos hpre]
                    refine runs_congr _ _ _ _ (ih _ _ _ _) ?_
                    intro r1 r2 hr
                    simp only [List.map_append, List.map_cons, projSpan, hr,
                      flushSpans_proj t1 t2]
                  · rw [if_neg hpre, if_neg hpre]
                    exact ih _ _ _ _
              · rw [if_neg ht, if_neg ht]
                by_cases hf : c = 'f'
                · rw [if_pos hf, if_pos hf]
                  cases hbs : byteSliceFrom bytes i
                  · rfl
                  · rename_i bs
                    simp only []
                    by_cases hpre : startsWithBytes bs falseBytes = true
                    · rw [if_pos hpre, if_pos hpre]
                      refine runs_congr _ _ _ _ (ih _ _ _ _) ?_
                      intro r1 r2 hr
                      simp only [List.map_append, List.map_cons, projSpan, hr,
                        flushSpans_proj t1 t2]
                    · rw [if_neg hpre, if_neg hpre]
                      exact ih _ _ _ _
                · rw [if_neg hf, if_neg hf]
                  by_cases hn : c = 'n'
                  · rw [if_pos hn, if_pos hn]
                    cases hbs : byteSliceFrom bytes i
                    · rfl
                    · rename_i bs
                      simp only []
                      by_cases hpre : startsWithBytes bs nullBytes = true
                      · rw [if_pos hpre, if_pos hpre]
                        refine runs_congr _ _ _ _ (ih _ _ _ _) ?_
                        intro r1 r2 hr
                        simp only [List.map_append, List.map_cons, projSpan, hr,
                          flushSpans_proj t1 t2]
                      · rw [if_neg hpre, if_neg hpre]
                        exact ih _ _ _ _
                  · rw [if_neg hn, if_neg hn]
                    exact ih _ _ _ _

/-- C10: the theme influences neither segmentation nor classification — for
every input and any two themes, the scanner produces the same number of runs
with identical texts in the same order, assigned the same categories (or
panics identically on both); only the colour attached to each run depends on
the theme. -/
theorem claim_C10 :
    ∀ (src : List Char) (t1 t2 : Theme),
      runs (json_to_spans src t1) = runs (json_to_spans src t2) := by
  intro src t1 t2
  exact go_theme_indep t1 t2 src (strBytes src) src.length 0 false false []

/-- Concatenated text distributes over appended run lists. -/
theorem concatText_append (l1 l2 : List Span) :
    concatText (l1 ++ l2) = concatText l1 ++ concatText l2 := by
  simp [concatText]

/-- Concatenated text of a run list beginning with a given span. -/
theorem concatText_cons (x : Span) (l : List Span) :
    concatText (x :: l) = x.text ++ concatText l := by
  simp [concatText]

/-- Flushing a buffer contributes exactly the buffer to the concatenated
text, whether or not the buffer is empty. -/
theorem concatText_flush (th : Theme) (k : Kind) (b : List Char) :
    concatText (flushSpans th k b) = b := by
  by_cases hb : b.isEmpty = true
  · simp [flushSpans, hb, concatText, List.isEmpty_iff.mp hb]
  · simp [flushSpans, hb, concatText]

/-- Characters are determined by their code points. -/
theorem char_toNat_inj (c d : Char) (h : c.toNat = d.toNat) : c = d := by
  apply Char.ext
  unfold Char.toNat at h
  exact UInt32.ext h

/-- The byte-prefix test holds exactly when the pattern is a prefix. -/
theorem startsWithBytes_iff (bs pat : List Nat) :
    startsWithBytes bs pat = true ↔ ∃ t, bs = pat ++ t := by
  induction pat generalizing bs with
  | nil => simp [startsWithBytes]
  | cons p ps ih =>
    cases bs with
    | nil => simp [startsWithBytes]
    | cons b bs0 =>
      simp only [startsWithBytes, Bool.and_eq_true, beq_iff_eq, ih,
        List.cons_append, List.cons_eq_cons]
      constructor
      · rintro ⟨rfl, t, rfl⟩
        exact ⟨t, rfl, rfl⟩
      · rintro ⟨t, rfl, rfl⟩
        exact ⟨rfl, t, rfl⟩

/-- A character list whose code-point image has a literal image as prefix
has the literal itself as prefix. -/
theorem map_toNat_prefix (p : List Char) :
    ∀ (l : List Char) (t : List Nat),
      l.map Char.toNat = p.map Char.toNat ++ t → ∃ t2, l = p ++ t2 := by
  induction p with
  | nil =>
    intro l t _
    exact ⟨l, rfl⟩
  | cons q qs ih =>
    intro l t h
    cases l with
    | nil => simp at h
    | cons c cs =>
      simp only [List.map_cons, List.cons_append, List.cons_eq_cons] at h
      obtain ⟨h1, h2⟩ := h
      obtain ⟨t2, rfl⟩ := ih cs t h2
      have hc : c = q := char_toNat_inj c q h1
      subst hc
      exact ⟨t2, rfl⟩

/-- On a text whose characters are all ASCII, the UTF-8 byte sequence is the
code-point sequence: every character encodes as its own single byte. -/
theorem strBytes_ascii (l : List Char) (hA : ∀ c ∈ l, c.toNat < 128) :
    strBytes l = l.map Char.toNat := by
  induction l with
  | nil => rfl
  | cons c cs ih =>
    have hc : c.toNat < 128 := hA c (by simp)
    have ih2 := ih (fun d hd => hA d (by simp [hd]))
    simp only [strBytes, List.map_cons, List.flatten_cons] at ih2 ⊢
    simp [utf8Bytes, hc, ih2]

/-- On all-ASCII bytes the char-boundary check always passes: slicing at any
offset up to the length succeeds and yields the byte suffix. -/
theorem byteSliceFrom_ascii (l : List Char) (hA : ∀ c ∈ l, c.toNat < 128)
    (i : Nat) (hi : i ≤ l.length) :
    byteSliceFrom (l.map Char.toNat) i = some ((l.drop i).map Char.toNat) := by
  unfold byteSliceFrom
  by_cases h0 : i = 0
  · subst h0
    simp
  · rw [if_neg h0]
    by_cases hl : i = (l.map Char.toNat).length
    · rw [if_pos hl]
      simp only [List.length_map] at hl
      simp [hl, List.drop_eq_nil_of_le]
    · rw [if_neg hl]
      have hlen : i < (l.map Char.toNat).length := by
        simp only [List.length_map] at hl ⊢
        omega
      rw [dif_pos hlen]
      rw [if_neg]
      · simp [List.map_drop]
      · have hb : ((l.map Char.toNat).get ⟨i, hlen⟩) < 128 := by
          simp only [List.get_eq_getElem, List.getElem_map]
          exact hA _ (List.getElem_mem _)
        omega

/-- Dropping the length of the matched prefix of a takeWhile run leaves the
dropWhile remainder. -/
theorem drop_length_takeWhile (p : Char → Bool) (l : List Char) :
    l.drop (l.takeWhile p).length = l.dropWhile p := by
  induction l with
  | nil => rfl
  | cons c cs ih =>
    by_cases hc : p c
    · simp [List.takeWhile_cons, List.dropWhile_cons, hc, ih]
    · simp [List.takeWhile_cons, List.dropWhile_cons, hc]

/-- On all-ASCII input the scanner loop never panics and its output, from
any position, concatenates to the pending buffer followed by the rest of
the input — provided the fuel covers the remaining characters, as the entry
point ensures. -/
theorem go_ascii (th : Theme) (src : List Char)
    (hA : ∀ c ∈ src, c.toNat < 128) :
    ∀ (fuel i : Nat) (inString escape : Bool) (buf : List Char),
      src.length ≤ i + fuel →
      ∃ rs, go th src (strBytes src) fuel i inString escape buf = some rs ∧
        concatText rs = buf ++ src.drop i := by
  intro fuel
  induction fuel with
  | zero =>
    intro i inString escape buf hf
    have hg : src[i]? = none := List.getElem?_eq_none_iff.mpr (by omega)
    refine ⟨flushSpans th Kind.Default buf, ?_, ?_⟩
    · unfold go
      rw [hg]
    · simp [concatText_flush, List.drop_eq_nil_of_le (by omega : src.length ≤ i)]
  | succ fuel ih =>
    intro i inString escape buf hf
    cases hg : src[i]? with
    | none =>
      have hlen : src.length ≤ i := List.getElem?_eq_none_iff.mp hg
      refine ⟨flushSpans th Kind.Default buf, ?_, ?_⟩
      · unfold go
        rw [hg]
      · simp [concatText_flush, List.drop_eq_nil_of_le hlen]
    | some c =>
      obtain ⟨hlt, hgeq⟩ := List.getElem?_eq_some.mp hg
      have hdrop : src.drop i = c :: src.drop (i + 1) := by
        rw [List.drop_eq_getElem_cons hlt, hgeq]
      by_cases hstr : inString = true
      · by_cases hesc : escape = true
        · obtain ⟨rest, hrest, hcat⟩ :=
            ih (i + 1) true false (buf ++ [c]) (by omega)
          refine ⟨rest, ?_, ?_⟩
          · unfold go
            rw [hg]
            simp only []
            rw [if_pos hstr, if_pos hesc]
            exact hrest
          · rw [hcat, hdrop]
            simp
        · by_cases hbk : c = '\\'
          · obtain ⟨rest, hrest, hcat⟩ :=
              ih (i + 1) true true (buf ++ [c]) (by omega)
            refine ⟨rest, ?_, ?_⟩
            · unfold go
              rw [hg]
              simp only []
              rw [if_pos hstr, if_neg hesc, if_pos hbk]
              exact hrest
            · rw [hcat, hdrop]
              simp
          · by_cases hq : c = '"'
            · obtain ⟨rest, hrest, hcat⟩ :=
                ih (i + 1) false escape [] (by omega)
              refine ⟨flushSpans th
                  (if keyLookahead src (i + 1) then Kind.Key else Kind.String)
                  (buf ++ [c]) ++ rest, ?_, ?_⟩
              · unfold go
                rw [hg]
                simp only []
                rw [if_pos hstr, if_neg hesc, if_neg hbk, if_pos hq, hrest]
                rfl
              · rw [concatText_append, concatText_flush, hcat, hdrop]
                simp
            · obtain ⟨rest, hrest, hcat⟩ :=
                ih (i + 1) true escape (buf ++ [c]) (by omega)
              refine ⟨rest, ?_, ?_⟩
              · unfold go
                rw [hg]
                simp only []
                rw [if_pos hstr, if_neg hesc, if_neg hbk, if_neg hq]
                exact hrest
              · rw [hcat, hdrop]
                simp
      · by_cases hq : c = '"'
        · obtain ⟨rest, hrest, hcat⟩ := ih (i + 1) true escape [c] (by omega)
          refine ⟨flushSpans th Kind.Default buf ++ rest, ?_, ?_⟩
          · unfold go
            rw [hg]
            simp only []
            rw [if_neg hstr, if_pos hq, hrest]
            rfl
          · rw [concatText_append, concatText_flush, hcat, hdrop]
            simp
        · by_cases hp : c = ':' ∨ c = '{' ∨ c = '}' ∨ c = '[' ∨ c = ']' ∨ c = ','
          · obtain ⟨rest, hrest, hcat⟩ :=
              ih (i + 1) inString escape [] (by omega)
            refine ⟨flushSpans th Kind.Default buf ++
                ⟨Kind.Punct, [c], th.punct⟩ :: rest, ?_, ?_⟩
            · unfold go
              rw [hg]
              simp only []
              rw [if_neg hstr, if_neg hq, if_pos hp, hrest]
              rfl
            · rw [concatText_append, concatText_flush, concatText_cons, hcat,
                hdrop]
              simp
          · by_cases hd : c.isDigit ∨ c = '-'
            · obtain ⟨rest, hrest, hcat⟩ :=
                ih (i + 1 + ((src.drop (i + 1)).takeWhile isNumCont).length)
                  inString escape [] (by omega)
              refine ⟨flushSpans th Kind.Default buf ++
                  ⟨Kind.Number,
                    c :: (src.drop (i + 1)).takeWhile isNumCont,
                    th.number⟩ :: rest, ?_, ?_⟩
              · unfold go
                rw [hg]
                simp only []
                rw [if_neg hstr, if_neg hq, if_neg hp, if_pos hd, hrest]
                rfl
              · rw [concatText_append, concatText_flush, concatText_cons, hcat,
                  hdrop]
                have h1 : src.drop (i + 1 +
                      ((src.drop (i + 1)).takeWhile isNumCont).length) =
                    (src.drop (i + 1)).drop
                      ((src.drop (i + 1)).takeWhile isNumCont).length :=
                  (List.drop_drop _ _ _).symm
                have hnum :
                    (src.drop (i + 1)).takeWhile isNumCont ++
                      src.drop (i + 1 + ((src.drop (i + 1)).takeWhile
                        isNumCont).length) = src.drop (i + 1) := by
                  rw [h1, drop_length_takeWhile,
                    List.takeWhile_append_dropWhile]
                simp only [List.append_assoc, List.nil_append, List.cons_append]
                rw [hnum]
            · have hbytes := strBytes_ascii src hA
              have hslice : byteSliceFrom (strBytes src) i =
                  some ((src.drop i).map Char.toNat) := by
                rw [hbytes]
                exact byteSliceFrom_ascii src hA i (le_of_lt hlt)
              by_cases ht : c = 't'
              · by_cases hpre :
                  startsWithBytes ((src.drop i).map Char.toNat) trueBytes = true
                · obtain ⟨t, htb⟩ := (startsWithBytes_iff _ _).mp hpre
                  rw [show trueBytes = "true".data.map Char.toNat from rfl]
                    at htb
                  obtain ⟨t2, ht2⟩ := map_toNat_prefix "true".data _ t htb
                  have ht3 : src.drop (i + 4) = t2 := by
                    rw [← List.drop_drop,
                      ht2, show (4 : Nat) = ("true".data).length from rfl,
                      List.drop_left]
                  obtain ⟨rest, hrest, hcat⟩ :=
                    ih (i + 4) inString escape [] (by omega)
                  refine ⟨flushSpans th Kind.Default buf ++
                      ⟨Kind.Bool, "true".data, th.boolean⟩ :: rest, ?_, ?_⟩
                  · unfold go
                    rw [hg]
                    simp only []
                    rw [if_neg hstr, if_neg hq, if_neg hp, if_neg hd,
                      if_pos ht, hslice]
                    simp only []
                    rw [if_pos hpre, hrest]
                    rfl
                  · rw [concatText_append, concatText_flush, concatText_cons,
                      hcat, ht3, ht2]
                    simp
                · obtain ⟨rest, hrest, hcat⟩ :=
                    ih (i + 1) inString escape (buf ++ [c]) (by omega)
                  refine ⟨rest, ?_, ?_⟩
                  · unfold go
                    rw [hg]
                    simp only []
                    rw [if_neg hstr, if_neg hq, if_neg hp, if_neg hd,
                      if_pos ht, hslice]
                    simp only []
                    rw [if_neg hpre]
                    exact hrest
                  · rw [hcat, hdrop]
                    simp
              · by_cases hfc : c = 'f'
                · by_cases hpre :
                    startsWithBytes ((src.drop i).map Char.toNat) falseBytes =
                      true
                  · obtain ⟨t, htb⟩ := (startsWithBytes_iff _ _).mp hpre
                    rw [show falseBytes = "false".data.map Char.toNat from rfl]
                      at htb
                    obtain ⟨t2, ht2⟩ := map_toNat_prefix "false".data _ t htb
                    have ht3 : src.drop (i + 5) = t2 := by
                      rw [← List.drop_drop,
                        ht2, show (5 : Nat) = ("false".data).length from rfl,
                        List.drop_left]
                    obtain ⟨rest, hrest, hcat⟩ :=
                      ih (i + 5) inString escape [] (by omega)
                    refine ⟨flushSpans th Kind.Default buf ++
                        ⟨Kind.Bool, "false".data, th.boolean⟩ :: rest, ?_, ?_⟩
                    · unfold go
                      rw [hg]
                      simp only []
                      rw [if_neg hstr, if_neg hq, if_neg hp, if_neg hd,
                        if_neg ht, if_pos hfc, hslice]
                      simp only []
                      rw [if_pos hpre, hrest]
                      rfl
                    · rw [concatText_append, concatText_flush, concatText_cons,
                        hcat, ht3, ht2]
                      simp
                  · obtain ⟨rest, hrest, hcat⟩ :=
                      ih (i + 1) inString escape (buf ++ [c]) (by omega)
                    refine ⟨rest, ?_, ?_⟩
                    · unfold go
                      rw [hg]
                      simp only []
                      rw [if_neg hstr, if_neg hq, if_neg hp, if_neg hd,
                        if_neg ht, if_pos hfc, hslice]
                      simp only []
                      rw [if_neg hpre]
                      exact hrest
                    · rw [hcat, hdrop]
                      simp
                · by_cases hn : c = 'n'
                  · by_cases hpre :
                      startsWithBytes ((src.drop i).map Char.toNat) nullBytes =
                        true
                    · obtain ⟨t, htb⟩ := (startsWithBytes_iff _ _).mp hpre
                      rw [show nullBytes = "null".data.map Char.toNat from rfl]
                        at htb
                      obtain ⟨t2, ht2⟩ := map_toNat_prefix "null".data _ t htb
                      have ht3 : src.drop (i + 4) = t2 := by
                        rw [← List.drop_drop,
                          ht2, show (4 : Nat) = ("null".data).length from rfl,
                          List.drop_left]
                      obtain ⟨rest, hrest, hcat⟩ :=
                        ih (i + 4) inString escape [] (by omega)
                      refine ⟨flushSpans th Kind.Default buf ++
                          ⟨Kind.Null, "null".data, th.null_⟩ :: rest, ?_, ?_⟩
                      · unfold go
                        rw [hg]
                        simp only []
                        rw [if_neg hstr, if_neg hq, if_neg hp, if_neg hd,
                          if_neg ht, if_neg hfc, if_pos hn, hslice]
                        simp only []
                        rw [if_pos hpre, hrest]
                        rfl
                      · rw [concatText_append, concatText_flush,
                          concatText_cons, hcat, ht3, ht2]
                        simp
                    · obtain ⟨rest, hrest, hcat⟩ :=
                        ih (i + 1) inString escape (buf ++ [c]) (by omega)
                      refine ⟨rest, ?_, ?_⟩
                      · unfold go
                        rw [hg]
                        simp only []
                        rw [if_neg hstr, if_neg hq, if_neg hp, if_neg hd,
                          if_neg ht, if_neg hfc, if_pos hn, hslice]
                        simp only []
                        rw [if_neg hpre]
                        exact hrest
                      · rw [hcat, hdrop]
                        simp
                  · obtain ⟨rest, hrest, hcat⟩ :=
                      ih (i + 1) inString escape (buf ++ [c]) (by omega)
                    refine ⟨rest, ?_, ?_⟩
                    · unfold go
                      rw [hg]
                      simp only []
                      rw [if_neg hstr, if_neg hq, if_neg hp, if_neg hd,
                        if_neg ht, if_neg hfc, if_neg hn]
                      exact hrest
                    · rw [hcat, hdrop]
                      simp

/-- On all-ASCII input (where character indices and byte offsets agree, so
the byte-slicing slip reported in claims C1 and C2 cannot strike) the
scanner is total and round-trips: it returns a run sequence whose texts
concatenate to the input.  This isolates the C1/C2 divergences as a purely
non-ASCII phenomenon. -/
theorem json_to_spans_ascii_roundtrip (src : List Char) (th : Theme)
    (hA : ∀ c ∈ src, c.toNat < 128) :
    ∃ rs, json_to_spans src th = some rs ∧ concatText rs = src := by
  obtain ⟨rs, h1, h2⟩ :=
    go_ascii th src hA src.length 0 false false [] (by omega)
  refine ⟨rs, h1, ?_⟩
  simpa using h2
